import Mathlib

/-!
Verification of the JSON framework extension `cement/ext/ext_json.py`.

The file embeds the two behavioral methods of the extension and the glue
hook it registers:

* `JsonOutputHandler.render` (lines 66-81): restores `sys.stdout` and
  `sys.stderr` from the saved copies in `cement.core.backend` and returns
  `json.dumps(data_dict)`.
* `JsonConfigHandler._parse_file` (lines 98-111): runs
  `self.merge(json.load(open(file_path)))` and returns `True`.
* `set_output_handler` (lines 26-36): a `pre_run` hook that overrides the
  configured output handler when `--json` appears in `app._meta.argv`.

Python strings are modelled as lists of Unicode code points (`List Nat`),
and byte/text content of files likewise.  `json.dumps` is embedded with its
default options, which is how `render` calls it: `ensure_ascii=True`,
separator `", "` between items and `": "` between a key and a value,
integers printed in decimal.  `json.loads` is embedded as the recursive
descent of CPython's pure-python scanner with `strict=True`: literal
`null` / `true` / `false`, integers with no leading zeros, strings with the
short escapes, `\uXXXX` escapes and surrogate-pair recombination, arrays
and objects with whitespace skipping, duplicate object keys collapsed the
way `dict(pairs)` collapses them, and a trailing-data check at top level.
Floating point numbers are outside the embedded value model, as are the
quirks of Python's `int(-,16)` on exotic `\u` digit strings.
-/

/-! ## The Python data model

`PyVal` is the value model of `render`'s `data_dict` and of `json.load`'s
result: `None`, `bool`, `int`, `str`, `list`, `dict`, plus `vobj`, an
arbitrary non-JSON-serializable object reference (identified by a number).
Lists and dicts are the mutual inductives `JArr` and `JDict` so that
recursion and induction stay structural.
-/

mutual
inductive PyVal where
  | vnull
  | vbool (b : Bool)
  | vint (n : Int)
  | vstr (s : List Nat)
  | varr (xs : JArr)
  | vdict (kvs : JDict)
  | vobj (id : Nat)

inductive JArr where
  | nil
  | cons (v : PyVal) (tl : JArr)

inductive JDict where
  | nil
  | cons (k : List Nat) (v : PyVal) (tl : JDict)
end

/-- Code points of a Lean string literal, used to write concrete inputs. -/
def cps (s : String) : List Nat := s.data.map Char.toNat

/-- Entries of a dict, in insertion order. -/
def dictPairs : JDict → List (List Nat × PyVal)
  | .nil => []
  | .cons k v tl => (k, v) :: dictPairs tl

/-- Keys of a dict, in insertion order. -/
def dKeys (d : JDict) : List (List Nat) := (dictPairs d).map Prod.fst

/-! ## `json.dumps` with its default options -/

/-- One lowercase hex digit, as `'%04x'` prints it. -/
def hexDigitChar (d : Nat) : Nat := if d < 10 then 48 + d else 87 + d

/-- Four hex digits of a number below `0x10000`. -/
def hex4 (n : Nat) : List Nat :=
  [hexDigitChar (n / 4096 % 16), hexDigitChar (n / 256 % 16),
   hexDigitChar (n / 16 % 16), hexDigitChar (n % 16)]

/-- `py_encode_basestring_ascii` on one character: `\"` and `\\`, the short
escapes for backspace, tab, newline, formfeed and carriage return, printable
ASCII kept as itself, everything else as `\uXXXX`, with a surrogate pair for
code points at `0x10000` and above. -/
def escChar (c : Nat) : List Nat :=
  if c = 34 then [92, 34]
  else if c = 92 then [92, 92]
  else if c = 8 then [92, 98]
  else if c = 9 then [92, 116]
  else if c = 10 then [92, 110]
  else if c = 12 then [92, 102]
  else if c = 13 then [92, 114]
  else if 32 ≤ c ∧ c ≤ 126 then [c]
  else if c < 65536 then 92 :: 117 :: hex4 c
  else 92 :: 117 :: hex4 (55296 + (c - 65536) / 1024) ++
       92 :: 117 :: hex4 (56320 + (c - 65536) % 1024)

/-- `py_encode_basestring_ascii` on a whole string (without the quotes). -/
def escape : List Nat → List Nat
  | [] => []
  | c :: tl => escChar c ++ escape tl

/-- Decimal digits of a natural number, most significant first, as Python's
`repr` prints it.  The first argument is recursion fuel. -/
def natDecAux : Nat → Nat → List Nat
  | 0, _ => []
  | fuel+1, n => if n < 10 then [48 + n] else natDecAux fuel (n / 10) ++ [48 + n % 10]

/-- Decimal digit characters of a natural number (`natDec 0 = "0"`). -/
def natDec (n : Nat) : List Nat := natDecAux (n + 1) n

/-- Decimal representation of a Python `int`, sign included. -/
def encInt (n : Int) : List Nat :=
  if n < 0 then 45 :: natDec n.natAbs else natDec n.toNat

mutual
/-- `json.dumps` with its default options.  A `vobj` anywhere raises
`TypeError` (`Except.error`); everything else serializes.  Item separator is
`", "`, key separator `": "`, dict entries in insertion order. -/
def dumps : PyVal → Except Unit (List Nat)
  | .vnull => .ok [110, 117, 108, 108]
  | .vbool true => .ok [116, 114, 117, 101]
  | .vbool false => .ok [102, 97, 108, 115, 101]
  | .vint n => .ok (encInt n)
  | .vstr s => .ok (34 :: (escape s ++ [34]))
  | .varr xs =>
    match dumpsArr xs with
    | .ok o => .ok (91 :: (o ++ [93]))
    | .error e => .error e
  | .vdict kvs =>
    match dumpsDict kvs with
    | .ok o => .ok (123 :: (o ++ [125]))
    | .error e => .error e
  | .vobj _ => .error ()

/-- The elements of a list, joined by `", "`. -/
def dumpsArr : JArr → Except Unit (List Nat)
  | .nil => .ok []
  | .cons v .nil => dumps v
  | .cons v (.cons w tl) =>
    match dumps v, dumpsArr (.cons w tl) with
    | .ok a, .ok b => .ok (a ++ 44 :: 32 :: b)
    | .error e, _ => .error e
    | _, .error e => .error e

/-- The entries of a dict, each as `"key": value`, joined by `", "`. -/
def dumpsDict : JDict → Except Unit (List Nat)
  | .nil => .ok []
  | .cons k v .nil =>
    match dumps v with
    | .ok b => .ok (34 :: (escape k ++ 34 :: 58 :: 32 :: b))
    | .error e => .error e
  | .cons k v (.cons k2 w tl) =>
    match dumps v, dumpsDict (.cons k2 w tl) with
    | .ok b, .ok r => .ok (34 :: (escape k ++ 34 :: 58 :: 32 :: (b ++ 44 :: 32 :: r)))
    | .error e, _ => .error e
    | _, .error e => .error e
end

mutual
/-- Does a value contain a non-JSON-serializable object reference?  Exactly
these values make `json.dumps` raise. -/
def hasObj : PyVal → Bool
  | .vnull => false
  | .vbool _ => false
  | .vint _ => false
  | .vstr _ => false
  | .varr xs => hasObjArr xs
  | .vdict kvs => hasObjDict kvs
  | .vobj _ => true

def hasObjArr : JArr → Bool
  | .nil => false
  | .cons v tl => hasObj v || hasObjArr tl

def hasObjDict : JDict → Bool
  | .nil => false
  | .cons _ v tl => hasObj v || hasObjDict tl
end

/-- A valid, non-surrogate Unicode code point: what a fully
JSON-representable Python string is made of. -/
def validCp (c : Nat) : Bool := decide (c < 1114112) && !(decide (55296 ≤ c) && decide (c < 57344))

/-- Every code point of the string is valid and non-surrogate. -/
def wfStr (s : List Nat) : Bool := s.all validCp

mutual
/-- A fully JSON-representable value: no object references, strings made of
valid non-surrogate code points, and dict keys distinct (as they are in any
Python dict). -/
def wfv : PyVal → Bool
  | .vnull => true
  | .vbool _ => true
  | .vint _ => true
  | .vstr s => wfStr s
  | .varr xs => wfa xs
  | .vdict kvs => wfd kvs
  | .vobj _ => false

def wfa : JArr → Bool
  | .nil => true
  | .cons v tl => wfv v && wfa tl

def wfd : JDict → Bool
  | .nil => true
  | .cons k v tl => wfStr k && wfv v && decide (k ∉ dKeys tl) && wfd tl
end

/-! ## The output handler

`backend.__saved_stdout__` and `__saved_stderr__` are the stream objects the
framework saved before any redirection; `sys.stdout` / `sys.stderr` are the
process's current streams.  Stream objects are opaque, modelled by numeric
identities.
-/

/-- The saved original streams held in `cement.core.backend`. -/
structure Backend where
  saved_stdout : Nat
  saved_stderr : Nat

/-- The process's current standard streams (`sys.stdout`, `sys.stderr`). -/
structure Sys where
  stdout : Nat
  stderr : Nat

/-- `JsonOutputHandler.render(data_dict, template=None)`: assigns
`sys.stdout = backend.__saved_stdout__` and
`sys.stderr = backend.__saved_stderr__`, then returns
`json.dumps(data_dict)`.  The template argument is not used.  The returned
pair is the stream state after the call and the outcome of `json.dumps`
(`Except.error` when `json.dumps` raises, after the streams were already
reassigned). -/
def render (bk : Backend) (sys0 : Sys) (data_dict : PyVal) (template : Option (List Nat)) :
    Sys × Except Unit (List Nat) :=
  let sys1 : Sys := { stdout := bk.saved_stdout, stderr := bk.saved_stderr }
  (sys1, dumps data_dict)

/-! ## The `pre_run` hook -/

/-- The fields of `app._meta` the hook touches. -/
structure AppMeta where
  argv : List String
  output_handler : String

/-- The application object: its meta and the active output handler that
`_setup_output_handler` resolves from `_meta.output_handler`. -/
structure App where
  app_meta : AppMeta
  active_output : String

/-- Modelled from the spec: `app._setup_output_handler` is framework code
outside this file; per the spec it applies the `_meta.output_handler`
selection as the active output handler. -/
def setup_output_handler (a : App) : App :=
  { a with active_output := a.app_meta.output_handler }

/-- `set_output_handler(app)`: if `'--json' in app._meta.argv`, set
`app._meta.output_handler = 'json'` and run `app._setup_output_handler()`. -/
def set_output_handler (a : App) : App :=
  if "--json" ∈ a.app_meta.argv then
    setup_output_handler { a with app_meta := { a.app_meta with output_handler := "json" } }
  else a

/-! ## `json.loads` -/

/-- JSON whitespace, as in the scanner's `_w` class `[ \t\n\r]`. -/
def isWs (c : Nat) : Bool := c == 32 || c == 9 || c == 10 || c == 13

/-- Skip whitespace. -/
def skipWs (s : List Nat) : List Nat := s.dropWhile isWs

/-- An ASCII decimal digit. -/
def isDigit (c : Nat) : Bool := decide (48 ≤ c) && decide (c ≤ 57)

/-- Value of one hex digit character, either case. -/
def hexVal (c : Nat) : Option Nat :=
  if 48 ≤ c ∧ c ≤ 57 then some (c - 48)
  else if 97 ≤ c ∧ c ≤ 102 then some (c - 87)
  else if 65 ≤ c ∧ c ≤ 70 then some (c - 55)
  else none

/-- `_decode_uXXXX`: four hex digit characters. -/
def parseHex4 : List Nat → Option (Nat × List Nat)
  | a :: b :: c :: d :: r =>
    match hexVal a, hexVal b, hexVal c, hexVal d with
    | some va, some vb, some vc, some vd =>
      some ((((va * 16 + vb) * 16 + vc) * 16 + vd), r)
    | _, _, _, _ => none
  | _ => none

/-- Prepend a decoded character to a string-parse outcome. -/
def strCons (c : Nat) : Option (List Nat × List Nat) → Option (List Nat × List Nat)
  | some (cs, r) => some (c :: cs, r)
  | none => none

/-- After a `\uXXXX` escape decoded to `h`: when `h` is a high surrogate
immediately followed by a `\u` escape, the follower must be four hex digits;
when those denote a low surrogate the two combine into one code point,
otherwise `h` stays as it is and the follower is left in the input. -/
def uDecode (h : Nat) (r3 : List Nat) : Option (Nat × List Nat) :=
  if 55296 ≤ h ∧ h < 56320 then
    match r3 with
    | 92 :: 117 :: r4 =>
      match parseHex4 r4 with
      | none => none
      | some (lo, r5) =>
        if 56320 ≤ lo ∧ lo < 57344 then
          some (65536 + (h - 55296) * 1024 + (lo - 56320), r5)
        else some (h, r3)
    | _ => some (h, r3)
  else some (h, r3)

/-- `py_scanstring` with `strict=True`, entered just after the opening
quote: raw characters except that control characters below `0x20` are
rejected, the short backslash escapes, and `\uXXXX`, where a high surrogate
immediately followed by a `\u`-escaped low surrogate is recombined into one
code point and a lone surrogate is kept as itself.  The fuel argument only
bounds recursion depth; one unit is spent per decoded character. -/
def parseStr : Nat → List Nat → Option (List Nat × List Nat)
  | 0, _ => none
  | fuel+1, s =>
    match s with
    | [] => none
    | c :: rest =>
      if c = 34 then some ([], rest)
      else if c = 92 then
        match rest with
        | [] => none
        | e :: r2 =>
          if e = 34 then strCons 34 (parseStr fuel r2)
          else if e = 92 then strCons 92 (parseStr fuel r2)
          else if e = 47 then strCons 47 (parseStr fuel r2)
          else if e = 98 then strCons 8 (parseStr fuel r2)
          else if e = 102 then strCons 12 (parseStr fuel r2)
          else if e = 110 then strCons 10 (parseStr fuel r2)
          else if e = 114 then strCons 13 (parseStr fuel r2)
          else if e = 116 then strCons 9 (parseStr fuel r2)
          else if e = 117 then
            match parseHex4 r2 with
            | none => none
            | some (h, r3) =>
              match uDecode h r3 with
              | none => none
              | some (cp, r5) => strCons cp (parseStr fuel r5)
          else none
      else if c < 32 then none
      else strCons c (parseStr fuel rest)

/-- Numeric value of a digit-character string. -/
def digitsToNat (ds : List Nat) : Nat := ds.foldl (fun a c => 10 * a + (c - 48)) 0

/-- Does the remainder start with `.`, `e` or `E`, which would make the
matched number a float?  Floats are outside the embedded value model. -/
def numTail (r : List Nat) : Bool :=
  match r with
  | c :: _ => c == 46 || c == 101 || c == 69
  | [] => false

/-- An unsigned integer by the `NUMBER_RE` rules: a nonempty digit run, no
leading zero unless the number is exactly `0`, and not continued by a
fraction or exponent. -/
def parseUNum (s : List Nat) : Option (Nat × List Nat) :=
  let ds := s.takeWhile isDigit
  let r := s.dropWhile isDigit
  if ds = [] then none
  else if ds.head? = some 48 ∧ ds ≠ [48] then none
  else if numTail r then none
  else some (digitsToNat ds, r)

/-- An integer with an optional leading minus sign. -/
def parseNum : List Nat → Option (PyVal × List Nat)
  | [] => none
  | c :: s1 =>
    if c = 45 then
      match parseUNum s1 with
      | some (n, r) => some (.vint (-(n : Int)), r)
      | none => none
    else
      match parseUNum (c :: s1) with
      | some (n, r) => some (.vint (n : Int), r)
      | none => none

/-- First-occurrence-position, last-value insertion: what `dict(pairs)` does
with a duplicate key. -/
def dictInsert : JDict → List Nat → PyVal → JDict
  | .nil, k, v => .cons k v .nil
  | .cons k1 v1 tl, k, v =>
    if k1 = k then .cons k1 v tl else .cons k1 v1 (dictInsert tl k v)

/-- `dict(pairs)` on the parsed key/value pairs. -/
def pairsToDict (ps : List (List Nat × PyVal)) : JDict :=
  ps.foldl (fun d q => dictInsert d q.1 q.2) .nil

/-- A pair list reassembled as a dict, order kept. -/
def listToD : List (List Nat × PyVal) → JDict
  | [] => .nil
  | (k, v) :: tl => .cons k v (listToD tl)

/-- Dict concatenation. -/
def dAppend : JDict → JDict → JDict
  | .nil, d => d
  | .cons k v tl, d => .cons k v (dAppend tl d)

/-- The remainder after a parsed number must not start with another digit
(or the digit run would not have ended there) nor with `.`, `e` or `E` (or
the number would be a float).  Every character that can follow a complete
number in `dumps` output satisfies this. -/
def numBoundary : List Nat → Prop
  | [] => True
  | c :: _ => isDigit c = false ∧ c ≠ 46 ∧ c ≠ 101 ∧ c ≠ 69

mutual
/-- `scan_once` of the pure-python scanner, positioned on the first
character of a value: literals, strings, numbers, arrays and objects.
Fuel bounds the recursion. -/
def parseVal : Nat → List Nat → Option (PyVal × List Nat)
  | 0, _ => none
  | fuel+1, s =>
    match s with
    | [] => none
    | c :: rest =>
      if c = 45 ∨ isDigit c = true then parseNum (c :: rest)
      else if c = 110 then
        match rest with
        | 117 :: 108 :: 108 :: r => some (.vnull, r)
        | _ => none
      else if c = 116 then
        match rest with
        | 114 :: 117 :: 101 :: r => some (.vbool true, r)
        | _ => none
      else if c = 102 then
        match rest with
        | 97 :: 108 :: 115 :: 101 :: r => some (.vbool false, r)
        | _ => none
      else if c = 34 then
        match parseStr fuel rest with
        | some (cs, r) => some (.vstr cs, r)
        | none => none
      else if c = 91 then
        match skipWs rest with
        | [] => none
        | c2 :: r1 =>
          if c2 = 93 then some (.varr .nil, r1)
          else
            match parseArr fuel (c2 :: r1) with
            | some (xs, r) => some (.varr xs, r)
            | none => none
      else if c = 123 then
        match skipWs rest with
        | [] => none
        | c2 :: r1 =>
          if c2 = 125 then some (.vdict .nil, r1)
          else
            match parseDict fuel (c2 :: r1) with
            | some (ps, r) => some (.vdict (pairsToDict ps), r)
            | none => none
      else none

/-- `JSONArray`'s element loop, positioned on the first element: a value,
then after whitespace either `]` or `,` and (after whitespace) the rest. -/
def parseArr : Nat → List Nat → Option (JArr × List Nat)
  | 0, _ => none
  | fuel+1, s =>
    match parseVal fuel s with
    | none => none
    | some (v, r) =>
      match skipWs r with
      | 93 :: r2 => some (.cons v .nil, r2)
      | 44 :: r2 =>
        match parseArr fuel (skipWs r2) with
        | some (tl, r3) => some (.cons v tl, r3)
        | none => none
      | _ => none

/-- `JSONObject`'s entry loop, positioned on the first key's quote: a
string key, `:` after whitespace, a value after whitespace, then either `}`
or `,` and the remaining entries.  Returns the pairs in source order. -/
def parseDict : Nat → List Nat → Option (List (List Nat × PyVal) × List Nat)
  | 0, _ => none
  | fuel+1, s =>
    match s with
    | 34 :: r1 =>
      match parseStr fuel r1 with
      | none => none
      | some (k, r2) =>
        match skipWs r2 with
        | 58 :: r3 =>
          match parseVal fuel (skipWs r3) with
          | none => none
          | some (v, r4) =>
            match skipWs r4 with
            | 125 :: r5 => some ([(k, v)], r5)
            | 44 :: r5 =>
              match parseDict fuel (skipWs r5) with
              | some (ps, r6) => some ((k, v) :: ps, r6)
              | none => none
            | _ => none
        | _ => none
    | _ => none
end

/-- `json.loads`: skip leading whitespace, scan one value, skip trailing
whitespace, and fail on trailing data.  The fuel `s.length + 1` always
suffices because every recursion step is entered past at least one consumed
character of its construct. -/
def parse (s : List Nat) : Option PyVal :=
  match parseVal (s.length + 1) (skipWs s) with
  | some (v, rest) => if skipWs rest = [] then some v else none
  | none => none

/-! ## The config handler

`_parse_file` runs `self.merge(json.load(open(file_path)))` and returns
`True`.  The filesystem is a partial map from path identities to file
content; `merge` comes from `ConfigParserConfigHandler`, which is repository
code outside this file and is modelled from the spec.
-/

/-- A Configuration Store: sections by name, each a key/value mapping,
values being whatever JSON put there. -/
def Store : Type := List (List Nat × List (List Nat × PyVal))

/-- First-match association lookup. -/
def alookup {β : Type} : List (List Nat × β) → List Nat → Option β
  | [], _ => none
  | (k1, v1) :: tl, k => if k1 = k then some v1 else alookup tl k

/-- Set a key: overwrite the value in place if the key exists, append
otherwise — Python `d[k] = v`. -/
def aset {β : Type} : List (List Nat × β) → List Nat → β → List (List Nat × β)
  | [], k, v => [(k, v)]
  | (k1, v1) :: tl, k, v =>
    if k1 = k then (k1, v) :: tl else (k1, v1) :: aset tl k v

/-- Look a key up through its section. -/
def storeLookup (st : Store) (sec k : List Nat) : Option PyVal :=
  match alookup st sec with
  | some m => alookup m k
  | none => none

/-- Modelled from the spec: one section of
`ConfigParserConfigHandler.merge` (repository code not in this file).  Every
key/value of the new section is written into the existing section,
overwriting a pre-existing value for the same key and keeping every other
key; a section that did not exist is created. -/
def mergeSection (st : Store) (sec : List Nat) (kvs : List (List Nat × PyVal)) : Store :=
  aset st sec (kvs.foldl (fun m q => aset m q.1 q.2) ((alookup st sec).getD []))

/-- Modelled from the spec: `ConfigParserConfigHandler.merge` (repository
code not in this file).  Merges every section/key/value of the loaded data
into the store, overwriting on collision and touching nothing else. -/
def merge (st : Store) (secs : List (List Nat × List (List Nat × PyVal))) : Store :=
  secs.foldl (fun st1 q => mergeSection st1 q.1 q.2) st

/-- The loaded JSON value as section data: it must be an object whose
values are objects, as `merge`'s iteration requires. -/
def secOf : JDict → Option (List (List Nat × List (List Nat × PyVal)))
  | .nil => some []
  | .cons k v tl =>
    match v with
    | .vdict kvs =>
      match secOf tl with
      | some r => some ((k, dictPairs kvs) :: r)
      | none => none
    | _ => none

/-- The top-level loaded value must itself be an object. -/
def toSections : PyVal → Option (List (List Nat × List (List Nat × PyVal)))
  | .vdict kvs => secOf kvs
  | _ => none

/-- File-handle events of one `_parse_file` call. -/
inductive FileOp where
  | openF (p : Nat)
  | closeF (p : Nat)
deriving DecidableEq

/-- The errors `_parse_file` can propagate: `open` raising on a missing or
unreadable path, `json.load` raising on invalid JSON, and `merge` raising
when the loaded value is not an object of objects. -/
inductive CfgErr where
  | fileAccess
  | parseFailure
  | typeFailure

/-- Outcome of one `_parse_file` call: the returned/raised result, the
Configuration Store afterwards, and the file-handle events that happened. -/
structure PFResult where
  res : Except CfgErr Bool
  store : Store
  ops : List FileOp

/-- `JsonConfigHandler._parse_file(file_path)`: the single statement
`self.merge(json.load(open(file_path)))` followed by `return True`.  `open`
raises if the path is absent; on success it acquires a handle that no code
on any path releases (there is no `close` and no context manager — the
handle is left to the runtime's garbage collection).  `json.load` raises on
invalid JSON, `merge` raises on non-object shapes; only when everything
succeeds is the store changed, and the method then returns `True`. -/
def parse_file (fs : Nat → Option (List Nat)) (path : Nat) (st : Store) : PFResult :=
  match fs path with
  | none => ⟨.error .fileAccess, st, []⟩
  | some content =>
    match parse content with
    | none => ⟨.error .parseFailure, st, [.openF path]⟩
    | some v =>
      match toSections v with
      | none => ⟨.error .typeFailure, st, [.openF path]⟩
      | some secs => ⟨.ok true, merge st secs, [.openF path]⟩

/-! ## Round-trip statements, by fuel -/

/-- At this fuel, the scanner inverts `dumps` on any value, for any
trailing input a number may not run into. -/
def RtVal (fuel : Nat) : Prop :=
  ∀ (v : PyVal) (out rest : List Nat), dumps v = .ok out → out.length < fuel →
    wfv v = true → numBoundary rest →
    parseVal fuel (out ++ rest) = some (v, rest)

/-- At this fuel, the element loop inverts `dumpsArr` on a nonempty list
followed by the closing bracket. -/
def RtArr (fuel : Nat) : Prop :=
  ∀ (xs : JArr) (out rest : List Nat), xs ≠ .nil → dumpsArr xs = .ok out →
    out.length + 1 < fuel → wfa xs = true →
    parseArr fuel (out ++ 93 :: rest) = some (xs, rest)

/-- At this fuel, the entry loop inverts `dumpsDict` on a nonempty dict
followed by the closing brace. -/
def RtDict (fuel : Nat) : Prop :=
  ∀ (kvs : JDict) (out rest : List Nat), kvs ≠ .nil → dumpsDict kvs = .ok out →
    out.length + 1 < fuel → wfd kvs = true →
    parseDict fuel (out ++ 125 :: rest) = some (dictPairs kvs, rest)

/-! ## Concrete data for the checks below -/

/-- A nested data dictionary exercising integers, escapes, non-ASCII and
astral characters. -/
def c1_kvs : JDict :=
  .cons (cps "a") (.vint 42)
    (.cons (cps "b")
      (.varr (.cons (.vstr (cps "hi")) (.cons .vnull (.cons (.vint (-7)) .nil))))
      (.cons (cps "c") (.vdict (.cons (cps "x") (.vstr [10, 955, 128512, 34, 92]) .nil)) .nil))

/-- A dict holding a non-serializable object reference. -/
def c4_bad : PyVal := .vdict (.cons (cps "obj") (.vobj 0) .nil)

/-- A list holding a non-serializable object reference. -/
def c10_bad : PyVal := .varr (.cons (.vobj 1) .nil)

/-- An app configured with some other output handler, `--json` in `argv`. -/
def c6_app : App := ⟨⟨["--color", "--json"], "dummy"⟩, "dummy"⟩

/-- The file content of the spec scenario, braces spelled as code points. -/
def c2_content : List Nat :=
  [123] ++ cps "\"A\": " ++ [123] ++ cps "\"x\": \"9\", \"z\": \"3\"" ++ [125, 125]

/-- A filesystem with the scenario file at path 7. -/
def c2_fs : Nat → Option (List Nat) := fun p => if p = 7 then some c2_content else none

/-- The store of the spec scenario: section A with x = 1 and y = 2. -/
def c2_store : Store := [(cps "A", [(cps "x", .vstr (cps "1")), (cps "y", .vstr (cps "2"))])]

/-- The parsed value of the scenario file. -/
def c2_v : PyVal :=
  .vdict (.cons (cps "A")
    (.vdict (.cons (cps "x") (.vstr (cps "9")) (.cons (cps "z") (.vstr (cps "3")) .nil))) .nil)

/-- The scenario file as section data. -/
def c2_secs : List (List Nat × List (List Nat × PyVal)) :=
  [(cps "A", [(cps "x", PyVal.vstr (cps "9")), (cps "z", PyVal.vstr (cps "3"))])]

/-- A filesystem with no files at all. -/
def c3_fs1 : Nat → Option (List Nat) := fun _ => none

/-- A filesystem holding invalid JSON at path 3. -/
def c3_fs2 : Nat → Option (List Nat) :=
  fun p => if p = 3 then some ([123] ++ cps "not json") else none

/-- A store to observe being left unchanged. -/
def c3_store : Store := [(cps "B", [(cps "k", .vstr (cps "0"))])]

/-- A filesystem holding an empty JSON object everywhere. -/
def c5_fs : Nat → Option (List Nat) := fun _ => some [123, 125]

/-- A filesystem holding an empty JSON object everywhere. -/
def c9_fs : Nat → Option (List Nat) := fun _ => some [123, 125]

/-! ## Facts about digit runs and whitespace -/

theorem takeWhile_app_all (p : Nat → Bool) :
    ∀ (xs r : List Nat), (∀ x ∈ xs, p x = true) →
      (xs ++ r).takeWhile p = xs ++ r.takeWhile p
  | [], _, _ => by simp
  | x :: xs, r, h => by
    have hx : p x = true := h x (by simp)
    simp only [List.cons_append, List.takeWhile_cons, hx, if_true]
    rw [takeWhile_app_all p xs r (fun y hy => h y (by simp [hy]))]

theorem dropWhile_app_all (p : Nat → Bool) :
    ∀ (xs r : List Nat), (∀ x ∈ xs, p x = true) →
      (xs ++ r).dropWhile p = r.dropWhile p
  | [], _, _ => by simp
  | x :: xs, r, h => by
    have hx : p x = true := h x (by simp)
    simp only [List.cons_append, List.dropWhile_cons, hx, if_true]
    exact dropWhile_app_all p xs r (fun y hy => h y (by simp [hy]))

theorem skipWs_cons_not {c : Nat} (r : List Nat) (h : isWs c = false) :
    skipWs (c :: r) = c :: r := by
  simp [skipWs, List.dropWhile_cons, h]

theorem skipWs_cons_ws {c : Nat} (r : List Nat) (h : isWs c = true) :
    skipWs (c :: r) = skipWs r := by
  simp [skipWs, List.dropWhile_cons, h]

theorem natDecAux_digits :
    ∀ (fuel n : Nat), n < fuel → ∀ c ∈ natDecAux fuel n, 48 ≤ c ∧ c ≤ 57 := by
  intro fuel
  induction fuel with
  | zero => intro n h; omega
  | succ f ih =>
    intro n h c hc
    by_cases h10 : n < 10
    · simp [natDecAux, h10] at hc
      omega
    · simp only [natDecAux, h10, if_false, List.mem_append, List.mem_singleton] at hc
      rcases hc with hc | hc
      · exact ih (n / 10) (by omega) c hc
      · omega

theorem natDecAux_ne_nil :
    ∀ (fuel n : Nat), n < fuel → natDecAux fuel n ≠ [] := by
  intro fuel
  induction fuel with
  | zero => intro n h; omega
  | succ f _ =>
    intro n _
    by_cases h10 : n < 10 <;> simp [natDecAux, h10]

theorem natDecAux_head :
    ∀ (fuel n : Nat), n < fuel → 0 < n → (natDecAux fuel n).head? ≠ some 48 := by
  intro fuel
  induction fuel with
  | zero => intro n h; omega
  | succ f ih =>
    intro n h hpos
    by_cases h10 : n < 10
    · simp [natDecAux, h10]
      omega
    · simp only [natDecAux, h10, if_false]
      have hne := natDecAux_ne_nil f (n / 10) (by omega)
      rcases hl : natDecAux f (n / 10) with _ | ⟨a, t⟩
      · exact absurd hl hne
      · have := ih (n / 10) (by omega) (by omega)
        rw [hl] at this
        simpa using this

theorem natDecAux_foldl :
    ∀ (fuel n a : Nat), n < fuel →
      List.foldl (fun a c => 10 * a + (c - 48)) a (natDecAux fuel n) =
        a * 10 ^ (natDecAux fuel n).length + n := by
  intro fuel
  induction fuel with
  | zero => intro n a h; omega
  | succ f ih =>
    intro n a h
    by_cases h10 : n < 10
    · simp [natDecAux, h10]
      omega
    · simp only [natDecAux, h10, if_false, List.foldl_append, List.length_append,
        List.foldl_cons, List.foldl_nil, List.length_cons, List.length_nil]
      rw [ih (n / 10) a (by omega)]
      rw [pow_succ, ← mul_assoc]
      generalize a * 10 ^ (natDecAux f (n / 10)).length = y
      omega

theorem natDec_digits (n : Nat) : ∀ c ∈ natDec n, 48 ≤ c ∧ c ≤ 57 :=
  natDecAux_digits (n + 1) n (by omega)

theorem natDec_ne_nil (n : Nat) : natDec n ≠ [] :=
  natDecAux_ne_nil (n + 1) n (by omega)

theorem natDec_head (n : Nat) (h : 0 < n) : (natDec n).head? ≠ some 48 :=
  natDecAux_head (n + 1) n (by omega) h

theorem digitsToNat_natDec (n : Nat) : digitsToNat (natDec n) = n := by
  unfold digitsToNat natDec
  rw [natDecAux_foldl (n + 1) n 0 (by omega)]
  omega

theorem natDec_zero : natDec 0 = [48] := rfl

theorem parseUNum_natDec (n : Nat) (rest : List Nat) (h : numBoundary rest) :
    parseUNum (natDec n ++ rest) = some (n, rest) := by
  have hdig : ∀ c ∈ natDec n, isDigit c = true := by
    intro c hc
    have := natDec_digits n c hc
    simp [isDigit]
    omega
  have htake : (natDec n ++ rest).takeWhile isDigit = natDec n := by
    rw [takeWhile_app_all isDigit (natDec n) rest hdig]
    rcases rest with _ | ⟨c, t⟩
    · simp
    · obtain ⟨h1, -, -, -⟩ := h
      simp [List.takeWhile_cons, h1]
  have hdrop : (natDec n ++ rest).dropWhile isDigit = rest := by
    rw [dropWhile_app_all isDigit (natDec n) rest hdig]
    rcases rest with _ | ⟨c, t⟩
    · simp
    · obtain ⟨h1, -, -, -⟩ := h
      simp [List.dropWhile_cons, h1]
  have htail : numTail rest = false := by
    rcases rest with _ | ⟨c, t⟩
    · rfl
    · obtain ⟨-, h2, h3, h4⟩ := h
      simp [numTail]
      omega
  unfold parseUNum
  simp only [htake, hdrop, htail]
  have hzero : ¬(List.head? (natDec n) = some 48 ∧ natDec n ≠ [48]) := by
    by_cases hn : n = 0
    · subst hn
      rw [natDec_zero]
      simp
    · rintro ⟨hh, -⟩
      exact natDec_head n (by omega) hh
  rw [if_neg (natDec_ne_nil n), if_neg hzero, if_neg (by simp : ¬false = true)]
  rw [digitsToNat_natDec]

theorem encInt_head (n : Int) :
    ∃ c t, encInt n = c :: t ∧ (c = 45 ∨ isDigit c = true) := by
  by_cases hn : n < 0
  · exact ⟨45, natDec n.natAbs, by simp [encInt, hn], Or.inl rfl⟩
  · rcases hl : natDec n.toNat with _ | ⟨c, t⟩
    · exact absurd hl (natDec_ne_nil _)
    · refine ⟨c, t, by simp [encInt, hn, hl], Or.inr ?_⟩
      have := natDec_digits n.toNat c (by rw [hl]; simp)
      simp [isDigit]
      omega

theorem parseNum_encInt (n : Int) (rest : List Nat) (h : numBoundary rest) :
    parseNum (encInt n ++ rest) = some (.vint n, rest) := by
  by_cases hn : n < 0
  · have henc : encInt n = 45 :: natDec n.natAbs := by simp [encInt, hn]
    rw [henc, List.cons_append]
    simp only [parseNum]
    rw [if_pos trivial, parseUNum_natDec n.natAbs rest h]
    show some (PyVal.vint (-((n.natAbs : Nat) : Int)), rest) = some (.vint n, rest)
    rw [show -((n.natAbs : Nat) : Int) = n by omega]
  · have henc : encInt n = natDec n.toNat := by simp [encInt, hn]
    rcases hl : natDec n.toNat with _ | ⟨c, t⟩
    · exact absurd hl (natDec_ne_nil _)
    · have hc : 48 ≤ c ∧ c ≤ 57 := natDec_digits n.toNat c (by rw [hl]; simp)
      rw [henc, hl, List.cons_append]
      simp only [parseNum]
      rw [if_neg (by omega : ¬ c = 45), ← List.cons_append, ← hl]
      rw [parseUNum_natDec n.toNat rest h]
      show some (PyVal.vint ((n.toNat : Nat) : Int), rest) = some (.vint n, rest)
      rw [show ((n.toNat : Nat) : Int) = n by omega]

/-! ## String escaping round trip -/

theorem hexVal_hexDigitChar : ∀ d, d < 16 → hexVal (hexDigitChar d) = some d := by decide

theorem parseHex4_hex4 (n : Nat) (r : List Nat) (h : n < 65536) :
    parseHex4 (hex4 n ++ r) = some (n, r) := by
  have h1 := hexVal_hexDigitChar (n / 4096 % 16) (Nat.mod_lt _ (by norm_num))
  have h2 := hexVal_hexDigitChar (n / 256 % 16) (Nat.mod_lt _ (by norm_num))
  have h3 := hexVal_hexDigitChar (n / 16 % 16) (Nat.mod_lt _ (by norm_num))
  have h4 := hexVal_hexDigitChar (n % 16) (Nat.mod_lt _ (by norm_num))
  simp only [hex4, List.cons_append, List.nil_append]
  simp only [parseHex4, h1, h2, h3, h4]
  have : (((n / 4096 % 16) * 16 + n / 256 % 16) * 16 + n / 16 % 16) * 16 + n % 16 = n := by
    omega
  rw [this]

theorem escChar_length_pos (c : Nat) : 0 < (escChar c).length := by
  unfold escChar
  split_ifs <;> simp

theorem escape_length : ∀ s : List Nat, s.length ≤ (escape s).length := by
  intro s
  induction s with
  | nil => simp [escape]
  | cons c tl ih =>
    have := escChar_length_pos c
    simp only [escape, List.length_append, List.length_cons]
    omega


theorem uDecode_not_hi (h : Nat) (r3 : List Nat) (hn : ¬(55296 ≤ h ∧ h < 56320)) :
    uDecode h r3 = some (h, r3) := by
  simp [uDecode, hn]

theorem uDecode_pair (h lo : Nat) (r2 : List Nat) (hh : 55296 ≤ h ∧ h < 56320)
    (hlo : 56320 ≤ lo ∧ lo < 57344) :
    uDecode h (92 :: 117 :: (hex4 lo ++ r2)) =
      some (65536 + (h - 55296) * 1024 + (lo - 56320), r2) := by
  simp [uDecode, hh, parseHex4_hex4 lo r2 (by omega), hlo]

theorem parseStr_esc34 (f : Nat) (r2 : List Nat) :
    parseStr (f + 1) (escChar 34 ++ r2) = strCons 34 (parseStr f r2) := by
  simp [escChar, parseStr]

theorem parseStr_esc92 (f : Nat) (r2 : List Nat) :
    parseStr (f + 1) (escChar 92 ++ r2) = strCons 92 (parseStr f r2) := by
  simp [escChar, parseStr]

theorem parseStr_esc8 (f : Nat) (r2 : List Nat) :
    parseStr (f + 1) (escChar 8 ++ r2) = strCons 8 (parseStr f r2) := by
  simp [escChar, parseStr]

theorem parseStr_esc9 (f : Nat) (r2 : List Nat) :
    parseStr (f + 1) (escChar 9 ++ r2) = strCons 9 (parseStr f r2) := by
  simp [escChar, parseStr]

theorem parseStr_esc10 (f : Nat) (r2 : List Nat) :
    parseStr (f + 1) (escChar 10 ++ r2) = strCons 10 (parseStr f r2) := by
  simp [escChar, parseStr]

theorem parseStr_esc12 (f : Nat) (r2 : List Nat) :
    parseStr (f + 1) (escChar 12 ++ r2) = strCons 12 (parseStr f r2) := by
  simp [escChar, parseStr]

theorem parseStr_esc13 (f : Nat) (r2 : List Nat) :
    parseStr (f + 1) (escChar 13 ++ r2) = strCons 13 (parseStr f r2) := by
  simp [escChar, parseStr]

theorem parseStr_escRaw (c f : Nat) (r2 : List Nat) (e34 : ¬ c = 34) (e92 : ¬ c = 92)
    (e8 : ¬ c = 8) (e9 : ¬ c = 9) (e10 : ¬ c = 10) (e12 : ¬ c = 12) (e13 : ¬ c = 13)
    (eraw : 32 ≤ c ∧ c ≤ 126) :
    parseStr (f + 1) (escChar c ++ r2) = strCons c (parseStr f r2) := by
  have hesc : escChar c = [c] := by
    simp [escChar, e34, e92, e8, e9, e10, e12, e13, eraw]
  rw [hesc, List.cons_append, List.nil_append]
  simp only [parseStr]
  rw [if_neg e34, if_neg e92, if_neg (by omega : ¬ c < 32)]

theorem parseStr_escBmp (c f : Nat) (r2 : List Nat) (e34 : ¬ c = 34) (e92 : ¬ c = 92)
    (e8 : ¬ c = 8) (e9 : ¬ c = 9) (e10 : ¬ c = 10) (e12 : ¬ c = 12) (e13 : ¬ c = 13)
    (eraw : ¬ (32 ≤ c ∧ c ≤ 126)) (ebmp : c < 65536) (hns : ¬(55296 ≤ c ∧ c < 56320)) :
    parseStr (f + 1) (escChar c ++ r2) = strCons c (parseStr f r2) := by
  have hesc : escChar c = 92 :: 117 :: hex4 c := by
    simp [escChar, e34, e92, e8, e9, e10, e12, e13, eraw, ebmp]
  rw [hesc, List.cons_append, List.cons_append]
  simp [parseStr, parseHex4_hex4 c r2 ebmp, uDecode_not_hi c r2 hns]

theorem escChar_ast (c : Nat) (e34 : ¬ c = 34) (e92 : ¬ c = 92)
    (e8 : ¬ c = 8) (e9 : ¬ c = 9) (e10 : ¬ c = 10) (e12 : ¬ c = 12) (e13 : ¬ c = 13)
    (eraw : ¬ (32 ≤ c ∧ c ≤ 126)) (ebmp : ¬ c < 65536) :
    escChar c = 92 :: 117 :: (hex4 (55296 + (c - 65536) / 1024) ++
      (92 :: 117 :: hex4 (56320 + (c - 65536) % 1024))) := by
  simp [escChar, e34, e92, e8, e9, e10, e12, e13, eraw, ebmp]

theorem parseStr_surrogates (c f hi lo : Nat) (r2 : List Nat)
    (hgi : 55296 + (c - 65536) / 1024 = hi)
    (hgl : 56320 + (c - 65536) % 1024 = lo)
    (ebmp : ¬ c < 65536) (hc1 : c < 1114112) :
    parseStr (f + 1) (92 :: 117 :: (hex4 hi ++ (92 :: 117 :: hex4 lo)) ++ r2) =
      strCons c (parseStr f r2) := by
  have hph1 : parseHex4 (hex4 hi ++ (92 :: 117 :: (hex4 lo ++ r2))) =
      some (hi, 92 :: 117 :: (hex4 lo ++ r2)) :=
    parseHex4_hex4 _ _ (by omega)
  have hud : uDecode hi (92 :: 117 :: (hex4 lo ++ r2)) =
      some (65536 + (hi - 55296) * 1024 + (lo - 56320), r2) :=
    uDecode_pair _ _ _ (by constructor <;> omega) (by constructor <;> omega)
  have hval : 65536 + (hi - 55296) * 1024 + (lo - 56320) = c := by omega
  rw [hval] at hud
  simp [parseStr, hph1, hud]

theorem parseStr_escAst (c f : Nat) (r2 : List Nat) (e34 : ¬ c = 34) (e92 : ¬ c = 92)
    (e8 : ¬ c = 8) (e9 : ¬ c = 9) (e10 : ¬ c = 10) (e12 : ¬ c = 12) (e13 : ¬ c = 13)
    (eraw : ¬ (32 ≤ c ∧ c ≤ 126)) (ebmp : ¬ c < 65536) (hc1 : c < 1114112) :
    parseStr (f + 1) (escChar c ++ r2) = strCons c (parseStr f r2) := by
  rw [escChar_ast c e34 e92 e8 e9 e10 e12 e13 eraw ebmp]
  exact parseStr_surrogates c f _ _ r2 rfl rfl ebmp hc1

theorem parseStr_escChar (c f : Nat) (r2 : List Nat) (h : validCp c = true) :
    parseStr (f + 1) (escChar c ++ r2) = strCons c (parseStr f r2) := by
  have hcv : c < 1114112 ∧ (c < 55296 ∨ 57344 ≤ c) := by
    simp [validCp] at h
    omega
  by_cases e34 : c = 34
  · subst e34
    exact parseStr_esc34 f r2
  by_cases e92 : c = 92
  · subst e92
    exact parseStr_esc92 f r2
  by_cases e8 : c = 8
  · subst e8
    exact parseStr_esc8 f r2
  by_cases e9 : c = 9
  · subst e9
    exact parseStr_esc9 f r2
  by_cases e10 : c = 10
  · subst e10
    exact parseStr_esc10 f r2
  by_cases e12 : c = 12
  · subst e12
    exact parseStr_esc12 f r2
  by_cases e13 : c = 13
  · subst e13
    exact parseStr_esc13 f r2
  by_cases eraw : 32 ≤ c ∧ c ≤ 126
  · exact parseStr_escRaw c f r2 e34 e92 e8 e9 e10 e12 e13 eraw
  by_cases ebmp : c < 65536
  · exact parseStr_escBmp c f r2 e34 e92 e8 e9 e10 e12 e13 eraw ebmp
      (by rcases hcv.2 with h2 | h2 <;> omega)
  · exact parseStr_escAst c f r2 e34 e92 e8 e9 e10 e12 e13 eraw ebmp hcv.1

theorem parseStr_escape :
    ∀ (s : List Nat) (fuel : Nat) (rest : List Nat), s.length < fuel → wfStr s = true →
      parseStr fuel (escape s ++ 34 :: rest) = some (s, rest) := by
  intro s
  induction s with
  | nil =>
    intro fuel rest hf _
    rcases fuel with _ | f
    · omega
    · simp [escape, parseStr]
  | cons c tl ih =>
    intro fuel rest hf hw
    rcases fuel with _ | f
    · omega
    · have hw2 : validCp c = true ∧ tl.all validCp = true := by
        simpa [wfStr, List.all_cons, Bool.and_eq_true] using hw
      have harr : escape (c :: tl) ++ 34 :: rest = escChar c ++ (escape tl ++ 34 :: rest) := by
        simp [escape]
      rw [harr, parseStr_escChar c f _ hw2.1, ih f rest (by simp at hf; omega) hw2.2]
      rfl

/-! ## Shape facts about `dumps` output -/

theorem dumps_head (v : PyVal) (out : List Nat) (hok : dumps v = .ok out) :
    ∃ c t, out = c :: t ∧ isWs c = false ∧ c ≠ 93 := by
  cases v with
  | vnull =>
    simp [dumps] at hok
    exact ⟨110, _, hok.symm, by decide, by decide⟩
  | vbool b =>
    cases b <;> simp [dumps] at hok
    · exact ⟨102, _, hok.symm, by decide, by decide⟩
    · exact ⟨116, _, hok.symm, by decide, by decide⟩
  | vint n =>
    simp [dumps] at hok
    obtain ⟨c, t, hct, hc⟩ := encInt_head n
    refine ⟨c, t, by rw [← hok, hct], ?_, ?_⟩
    · rcases hc with h | h
      · subst h; decide
      · simp [isDigit] at h
        simp [isWs]
        omega
    · rcases hc with h | h
      · omega
      · simp [isDigit] at h
        omega
  | vstr s =>
    simp [dumps] at hok
    exact ⟨34, _, hok.symm, by decide, by decide⟩
  | varr xs =>
    rcases hA : dumpsArr xs with o | o <;> simp [dumps, hA] at hok
    exact ⟨91, _, hok.symm, by decide, by decide⟩
  | vdict kvs =>
    rcases hD : dumpsDict kvs with o | o <;> simp [dumps, hD] at hok
    exact ⟨123, _, hok.symm, by decide, by decide⟩
  | vobj i => simp [dumps] at hok

theorem dumpsArr_head (v : PyVal) (tl : JArr) (out : List Nat)
    (hok : dumpsArr (.cons v tl) = .ok out) :
    ∃ c t, out = c :: t ∧ isWs c = false ∧ c ≠ 93 := by
  cases tl with
  | nil => exact dumps_head v out hok
  | cons w tl2 =>
    rcases hv : dumps v with a | a <;>
      rcases hr : dumpsArr (.cons w tl2) with b | b <;>
        simp [dumpsArr, hv, hr] at hok
    obtain ⟨c, t, hct, hws, h93⟩ := dumps_head v a hv
    exact ⟨c, t ++ 44 :: 32 :: b, by rw [← hok, hct]; simp, hws, h93⟩

theorem dumpsDict_head (k : List Nat) (v : PyVal) (tl : JDict) (out : List Nat)
    (hok : dumpsDict (.cons k v tl) = .ok out) :
    ∃ t, out = 34 :: t := by
  cases tl with
  | nil =>
    rcases hv : dumps v with b | b <;> simp [dumpsDict, hv] at hok
    exact ⟨_, hok.symm⟩
  | cons k2 w tl2 =>
    rcases hv : dumps v with b | b <;>
      rcases hr : dumpsDict (.cons k2 w tl2) with r | r <;>
        simp [dumpsDict, hv, hr] at hok
    exact ⟨_, hok.symm⟩

/-! ## `dict(pairs)` on distinct keys -/

theorem dAppend_nil : ∀ d : JDict, dAppend d .nil = d
  | .nil => rfl
  | .cons k v tl => by rw [dAppend, dAppend_nil tl]

theorem dAppend_assoc : ∀ a b c : JDict, dAppend (dAppend a b) c = dAppend a (dAppend b c)
  | .nil, _, _ => rfl
  | .cons k v tl, b, c => by
    simp only [dAppend]
    rw [dAppend_assoc tl b c]

theorem dictPairs_dAppend : ∀ a b : JDict, dictPairs (dAppend a b) = dictPairs a ++ dictPairs b
  | .nil, _ => rfl
  | .cons k v tl, b => by
    simp only [dAppend, dictPairs, List.cons_append]
    rw [dictPairs_dAppend tl b]

theorem dKeys_dAppend (a b : JDict) : dKeys (dAppend a b) = dKeys a ++ dKeys b := by
  simp [dKeys, dictPairs_dAppend]

theorem listToD_dictPairs : ∀ d : JDict, listToD (dictPairs d) = d
  | .nil => rfl
  | .cons k v tl => by
    simp only [dictPairs, listToD]
    rw [listToD_dictPairs tl]

theorem dictInsert_not_mem : ∀ (d : JDict) (k : List Nat) (v : PyVal),
    k ∉ dKeys d → dictInsert d k v = dAppend d (.cons k v .nil)
  | .nil, _, _, _ => rfl
  | .cons k1 v1 tl, k, v, h => by
    have hcons : dKeys (JDict.cons k1 v1 tl) = k1 :: dKeys tl := rfl
    rw [hcons] at h
    have hk1 : ¬ k1 = k := fun he => h (by simp [he])
    have hk2 : k ∉ dKeys tl := fun hx => h (List.mem_cons_of_mem _ hx)
    simp only [dictInsert, dAppend, if_neg hk1]
    rw [dictInsert_not_mem tl k v hk2]

theorem foldl_dictInsert :
    ∀ (ps : List (List Nat × PyVal)) (acc : JDict),
      (∀ q ∈ ps, q.1 ∉ dKeys acc) → (ps.map Prod.fst).Nodup →
      ps.foldl (fun d q => dictInsert d q.1 q.2) acc = dAppend acc (listToD ps) := by
  intro ps
  induction ps with
  | nil =>
    intro acc _ _
    simp [listToD, dAppend_nil]
  | cons q tl ih =>
    intro acc hdis hnd
    obtain ⟨k, v⟩ := q
    simp only [List.map_cons, List.nodup_cons] at hnd
    obtain ⟨hktl, hnd2⟩ := hnd
    simp only [List.foldl_cons]
    have hk : k ∉ dKeys acc := hdis (k, v) (by simp)
    rw [dictInsert_not_mem acc k v hk]
    have hdis2 : ∀ q2 ∈ tl, q2.1 ∉ dKeys (dAppend acc (JDict.cons k v .nil)) := by
      intro q2 hq2
      rw [dKeys_dAppend]
      simp only [List.mem_append]
      rintro (hin | hin)
      · exact hdis q2 (by simp [hq2]) hin
      · have he : q2.1 = k := by simpa [dKeys, dictPairs] using hin
        exact hktl (he ▸ List.mem_map_of_mem Prod.fst hq2)
    rw [ih (dAppend acc (JDict.cons k v .nil)) hdis2 hnd2]
    rw [dAppend_assoc]
    rfl

theorem pairsToDict_dictPairs (d : JDict) (h : (dKeys d).Nodup) :
    pairsToDict (dictPairs d) = d := by
  unfold pairsToDict
  rw [foldl_dictInsert (dictPairs d) .nil
    (by intro q _; simp [dKeys, dictPairs]) h]
  show listToD (dictPairs d) = d
  exact listToD_dictPairs d

theorem wfd_nodup : ∀ d : JDict, wfd d = true → (dKeys d).Nodup
  | .nil, _ => by simp [dKeys, dictPairs]
  | .cons k v tl, h => by
    simp only [wfd, Bool.and_eq_true, decide_eq_true_eq] at h
    obtain ⟨⟨⟨-, -⟩, hnot⟩, htl⟩ := h
    have := wfd_nodup tl htl
    simp only [dKeys, dictPairs, List.map_cons, List.nodup_cons]
    exact ⟨by simpa [dKeys] using hnot, by simpa [dKeys] using this⟩

/-! ## The scanner inverts the encoder -/

theorem numBoundary_44 (r : List Nat) : numBoundary (44 :: r) := by
  refine ⟨rfl, ?_, ?_, ?_⟩ <;> decide

theorem numBoundary_93 (r : List Nat) : numBoundary (93 :: r) := by
  refine ⟨rfl, ?_, ?_, ?_⟩ <;> decide

theorem numBoundary_125 (r : List Nat) : numBoundary (125 :: r) := by
  refine ⟨rfl, ?_, ?_, ?_⟩ <;> decide

theorem rtVal_vnull (fuel : Nat) (out rest : List Nat)
    (hok : dumps .vnull = .ok out) :
    parseVal (fuel + 1) (out ++ rest) = some (.vnull, rest) := by
  simp only [dumps, Except.ok.injEq] at hok
  subst hok
  simp [parseVal, isDigit]

theorem rtVal_vtrue (fuel : Nat) (out rest : List Nat)
    (hok : dumps (.vbool true) = .ok out) :
    parseVal (fuel + 1) (out ++ rest) = some (.vbool true, rest) := by
  simp only [dumps, Except.ok.injEq] at hok
  subst hok
  simp [parseVal, isDigit]

theorem rtVal_vfalse (fuel : Nat) (out rest : List Nat)
    (hok : dumps (.vbool false) = .ok out) :
    parseVal (fuel + 1) (out ++ rest) = some (.vbool false, rest) := by
  simp only [dumps, Except.ok.injEq] at hok
  subst hok
  simp [parseVal, isDigit]

theorem rtVal_vint (fuel : Nat) (n : Int) (out rest : List Nat)
    (hok : dumps (.vint n) = .ok out) (hnb : numBoundary rest) :
    parseVal (fuel + 1) (out ++ rest) = some (.vint n, rest) := by
  simp only [dumps, Except.ok.injEq] at hok
  subst hok
  obtain ⟨c, t, hct, hc⟩ := encInt_head n
  rw [hct, List.cons_append]
  simp only [parseVal]
  rw [if_pos (by rcases hc with h | h; exact Or.inl h; exact Or.inr h :
    c = 45 ∨ isDigit c = true)]
  rw [← List.cons_append, ← hct]
  exact parseNum_encInt n rest hnb

theorem rtVal_vstr (fuel : Nat) (s : List Nat) (out rest : List Nat)
    (hok : dumps (.vstr s) = .ok out) (hlen : out.length < fuel + 1)
    (hwf : wfStr s = true) :
    parseVal (fuel + 1) (out ++ rest) = some (.vstr s, rest) := by
  simp only [dumps, Except.ok.injEq] at hok
  subst hok
  have hs : s.length < fuel := by
    have := escape_length s
    simp at hlen
    omega
  rw [show (34 :: (escape s ++ [34])) ++ rest = 34 :: (escape s ++ 34 :: rest) by simp]
  simp [parseVal, isDigit, parseStr_escape s fuel rest hs hwf]

theorem rtVal_varr (fuel : Nat) (xs : JArr) (out rest : List Nat)
    (hok : dumps (.varr xs) = .ok out) (hlen : out.length < fuel + 1)
    (hwf : wfa xs = true) (ihB : RtArr fuel) :
    parseVal (fuel + 1) (out ++ rest) = some (.varr xs, rest) := by
  rcases hA : dumpsArr xs with e | o
  · simp [dumps, hA] at hok
  · simp only [dumps, hA, Except.ok.injEq] at hok
    subst hok
    cases xs with
    | nil =>
      simp only [dumpsArr, Except.ok.injEq] at hA
      subst hA
      simp [parseVal, isDigit, skipWs, isWs]
    | cons v1 tl1 =>
      obtain ⟨c, t, hct, hws, h93⟩ := dumpsArr_head v1 tl1 o hA
      subst hct
      have hlen2 : (c :: t).length + 1 < fuel := by
        simp at hlen ⊢
        omega
      have hB := ihB (JArr.cons v1 tl1) (c :: t) rest
        (fun h => JArr.noConfusion h) hA hlen2 hwf
      rw [List.cons_append] at hB
      rw [show (91 :: (c :: t ++ [93])) ++ rest = 91 :: (c :: (t ++ 93 :: rest)) by simp]
      simp [parseVal, isDigit, skipWs_cons_not _ hws, h93, hB]

theorem rtVal_vdict (fuel : Nat) (kvs : JDict) (out rest : List Nat)
    (hok : dumps (.vdict kvs) = .ok out) (hlen : out.length < fuel + 1)
    (hwf : wfd kvs = true) (ihC : RtDict fuel) :
    parseVal (fuel + 1) (out ++ rest) = some (.vdict kvs, rest) := by
  rcases hD : dumpsDict kvs with e | o
  · simp [dumps, hD] at hok
  · simp only [dumps, hD, Except.ok.injEq] at hok
    subst hok
    cases kvs with
    | nil =>
      simp only [dumpsDict, Except.ok.injEq] at hD
      subst hD
      simp [parseVal, isDigit, skipWs, isWs]
    | cons k1 v1 tl1 =>
      obtain ⟨t, hct⟩ := dumpsDict_head k1 v1 tl1 o hD
      subst hct
      have hlen2 : (34 :: t).length + 1 < fuel := by
        simp at hlen ⊢
        omega
      have hC := ihC (JDict.cons k1 v1 tl1) (34 :: t) rest
        (fun h => JDict.noConfusion h) hD hlen2 hwf
      rw [List.cons_append] at hC
      rw [show (123 :: (34 :: t ++ [125])) ++ rest = 123 :: (34 :: (t ++ 125 :: rest)) by simp]
      have hpd := pairsToDict_dictPairs (JDict.cons k1 v1 tl1) (wfd_nodup _ hwf)
      simp [parseVal, isDigit, skipWs, isWs, hC, hpd]

theorem rtArr_step (fuel : Nat) (ihA : RtVal fuel) (ihB : RtArr fuel) : RtArr (fuel + 1) := by
  intro xs out rest hne hok hlen hwf
  cases xs with
  | nil => exact absurd rfl hne
  | cons v tl =>
    have hwp : wfv v = true ∧ wfa tl = true := by
      simpa [wfa, Bool.and_eq_true] using hwf
    cases tl with
    | nil =>
      simp only [dumpsArr] at hok
      have hA := ihA v out (93 :: rest) hok (by omega) hwp.1 (numBoundary_93 rest)
      have hsk : skipWs (93 :: rest) = 93 :: rest := skipWs_cons_not _ (by decide)
      simp [parseArr, hA, hsk]
    | cons w tl2 =>
      rcases hv : dumps v with ea | a <;>
        rcases hr : dumpsArr (.cons w tl2) with eb | b <;>
          simp only [dumpsArr, hv, hr, Except.ok.injEq] at hok
      all_goals try exact absurd hok (by simp)
      subst hok
      obtain ⟨c, t, hbt, hws, h93⟩ := dumpsArr_head w tl2 b hr
      subst hbt
      have ha1 : 1 ≤ a.length := by
        obtain ⟨c0, t0, h0, -, -⟩ := dumps_head v a hv
        subst h0
        simp
      have hA := ihA v a (44 :: 32 :: (c :: (t ++ 93 :: rest))) hv
        (by simp at hlen; omega) hwp.1 (numBoundary_44 _)
      have hB := ihB (JArr.cons w tl2) (c :: t) rest
        (fun h => JArr.noConfusion h) hr (by simp at hlen ⊢; omega) hwp.2
      rw [List.cons_append] at hB
      have hsk1 : skipWs (44 :: 32 :: (c :: (t ++ 93 :: rest))) =
          44 :: 32 :: (c :: (t ++ 93 :: rest)) := skipWs_cons_not _ (by decide)
      have hsk2 : skipWs (32 :: (c :: (t ++ 93 :: rest))) = c :: (t ++ 93 :: rest) := by
        rw [skipWs_cons_ws _ (by decide), skipWs_cons_not _ hws]
      rw [show (a ++ 44 :: 32 :: (c :: t)) ++ 93 :: rest =
        a ++ (44 :: 32 :: (c :: (t ++ 93 :: rest))) by simp]
      simp [parseArr, hA, hsk1, hsk2, hB]

theorem rtDict_nil_case (fuel : Nat) (ihA : RtVal fuel) (k : List Nat) (v : PyVal)
    (out rest : List Nat) (hok : dumpsDict (.cons k v .nil) = .ok out)
    (hlen : out.length + 1 < fuel + 1) (hk : wfStr k = true) (hwv : wfv v = true) :
    parseDict (fuel + 1) (out ++ 125 :: rest) = some (dictPairs (.cons k v .nil), rest) := by
  rcases hv : dumps v with e | b <;> simp only [dumpsDict, hv, Except.ok.injEq] at hok
  all_goals try exact absurd hok (by simp)
  subst hok
  obtain ⟨c, t, hbt, hws, -⟩ := dumps_head v b hv
  subst hbt
  have hklen : k.length < fuel := by
    have := escape_length k
    simp at hlen
    omega
  have hstr := parseStr_escape k fuel (58 :: 32 :: (c :: (t ++ 125 :: rest))) hklen hk
  have hA := ihA v (c :: t) (125 :: rest) hv (by simp at hlen ⊢; omega) hwv
    (numBoundary_125 _)
  rw [List.cons_append] at hA
  have hsk1 : skipWs (58 :: 32 :: (c :: (t ++ 125 :: rest))) =
      58 :: 32 :: (c :: (t ++ 125 :: rest)) := skipWs_cons_not _ (by decide)
  have hsk2 : skipWs (32 :: (c :: (t ++ 125 :: rest))) = c :: (t ++ 125 :: rest) := by
    rw [skipWs_cons_ws _ (by decide), skipWs_cons_not _ hws]
  have hsk3 : skipWs (125 :: rest) = 125 :: rest := skipWs_cons_not _ (by decide)
  rw [show (34 :: (escape k ++ 34 :: 58 :: 32 :: (c :: t))) ++ 125 :: rest =
    34 :: (escape k ++ 34 :: (58 :: 32 :: (c :: (t ++ 125 :: rest)))) by simp]
  simp [parseDict, hstr, hsk1, hsk2, hsk3, hA, dictPairs]

theorem rtDict_cons_case (fuel : Nat) (ihA : RtVal fuel) (ihC : RtDict fuel)
    (k : List Nat) (v : PyVal) (k2 : List Nat) (w : PyVal) (tl2 : JDict)
    (out rest : List Nat) (hok : dumpsDict (.cons k v (.cons k2 w tl2)) = .ok out)
    (hlen : out.length + 1 < fuel + 1) (hk : wfStr k = true) (hwv : wfv v = true)
    (hwtl : wfd (.cons k2 w tl2) = true) :
    parseDict (fuel + 1) (out ++ 125 :: rest) =
      some (dictPairs (.cons k v (.cons k2 w tl2)), rest) := by
  rcases hv : dumps v with e | b <;>
    rcases hr : dumpsDict (.cons k2 w tl2) with e2 | r0 <;>
      simp only [dumpsDict, hv, hr, Except.ok.injEq] at hok
  all_goals try exact absurd hok (by simp)
  subst hok
  obtain ⟨c, t, hbt, hws, -⟩ := dumps_head v b hv
  subst hbt
  obtain ⟨t2, hr0⟩ := dumpsDict_head k2 w tl2 r0 hr
  subst hr0
  have hklen : k.length < fuel := by
    have := escape_length k
    simp at hlen
    omega
  have hstr := parseStr_escape k fuel
    (58 :: 32 :: (c :: (t ++ 44 :: 32 :: (34 :: (t2 ++ 125 :: rest))))) hklen hk
  have hA := ihA v (c :: t) (44 :: 32 :: (34 :: (t2 ++ 125 :: rest))) hv
    (by simp at hlen ⊢; omega) hwv (numBoundary_44 _)
  rw [List.cons_append] at hA
  have hC := ihC (JDict.cons k2 w tl2) (34 :: t2) rest
    (fun h => JDict.noConfusion h) hr (by simp at hlen ⊢; omega) hwtl
  rw [List.cons_append] at hC
  have hsk1 : skipWs (58 :: 32 :: (c :: (t ++ 44 :: 32 :: (34 :: (t2 ++ 125 :: rest))))) =
      58 :: 32 :: (c :: (t ++ 44 :: 32 :: (34 :: (t2 ++ 125 :: rest)))) :=
    skipWs_cons_not _ (by decide)
  have hsk2 : skipWs (32 :: (c :: (t ++ 44 :: 32 :: (34 :: (t2 ++ 125 :: rest))))) =
      c :: (t ++ 44 :: 32 :: (34 :: (t2 ++ 125 :: rest))) := by
    rw [skipWs_cons_ws _ (by decide), skipWs_cons_not _ hws]
  have hsk3 : skipWs (44 :: 32 :: (34 :: (t2 ++ 125 :: rest))) =
      44 :: 32 :: (34 :: (t2 ++ 125 :: rest)) := skipWs_cons_not _ (by decide)
  have hsk4 : skipWs (32 :: (34 :: (t2 ++ 125 :: rest))) = 34 :: (t2 ++ 125 :: rest) := by
    rw [skipWs_cons_ws _ (by decide), skipWs_cons_not _ (by decide)]
  rw [show (34 :: (escape k ++ 34 :: 58 :: 32 :: (c :: t ++ 44 :: 32 :: (34 :: t2)))) ++
      125 :: rest =
    34 :: (escape k ++ 34 :: (58 :: 32 :: (c :: (t ++ 44 :: 32 :: (34 :: (t2 ++ 125 :: rest))))))
    by simp]
  simp [parseDict, hstr, hsk1, hsk2, hsk3, hsk4, hA, hC, dictPairs]

theorem rtDict_step (fuel : Nat) (ihA : RtVal fuel) (ihC : RtDict fuel) : RtDict (fuel + 1) := by
  intro kvs out rest hne hok hlen hwf
  cases kvs with
  | nil => exact absurd rfl hne
  | cons k v tl =>
    have hwp : wfStr k = true ∧ wfv v = true ∧ wfd tl = true := by
      simp only [wfd, Bool.and_eq_true, decide_eq_true_eq] at hwf
      exact ⟨hwf.1.1.1, hwf.1.1.2, hwf.2⟩
    cases tl with
    | nil => exact rtDict_nil_case fuel ihA k v out rest hok hlen hwp.1 hwp.2.1
    | cons k2 w tl2 =>
      exact rtDict_cons_case fuel ihA ihC k v k2 w tl2 out rest hok hlen
        hwp.1 hwp.2.1 hwp.2.2

theorem roundtrip : ∀ fuel : Nat, RtVal fuel ∧ RtArr fuel ∧ RtDict fuel := by
  intro fuel
  induction fuel with
  | zero =>
    refine ⟨?_, ?_, ?_⟩
    · intro v out rest hok hlen hwf hnb
      omega
    · intro xs out rest hne hok hlen hwf
      omega
    · intro kvs out rest hne hok hlen hwf
      omega
  | succ f ih =>
    obtain ⟨ihA, ihB, ihC⟩ := ih
    refine ⟨?_, rtArr_step f ihA ihB, rtDict_step f ihA ihC⟩
    intro v out rest hok hlen hwf hnb
    cases v with
    | vnull => exact rtVal_vnull f out rest hok
    | vbool b =>
      cases b
      · exact rtVal_vfalse f out rest hok
      · exact rtVal_vtrue f out rest hok
    | vint n => exact rtVal_vint f n out rest hok hnb
    | vstr s => exact rtVal_vstr f s out rest hok hlen hwf
    | varr xs => exact rtVal_varr f xs out rest hok hlen hwf ihB
    | vdict kvs => exact rtVal_vdict f kvs out rest hok hlen hwf ihC
    | vobj i => simp [dumps] at hok

theorem parse_dumps (v : PyVal) (out : List Nat) (hok : dumps v = .ok out)
    (hwf : wfv v = true) : parse out = some v := by
  obtain ⟨c, t, hct, hws, -⟩ := dumps_head v out hok
  have hA := (roundtrip (out.length + 1)).1 v out [] hok (by omega) hwf trivial
  rw [List.append_nil] at hA
  unfold parse
  rw [show skipWs out = out by rw [hct]; exact skipWs_cons_not _ hws]
  rw [hA]
  simp [skipWs]

/-! ## Serializability -/

theorem dumps_ok_of_wf_all : ∀ fuel : Nat,
    (∀ v : PyVal, sizeOf v < fuel → wfv v = true → ∃ out, dumps v = .ok out) ∧
    (∀ xs : JArr, sizeOf xs < fuel → wfa xs = true → ∃ out, dumpsArr xs = .ok out) ∧
    (∀ kvs : JDict, sizeOf kvs < fuel → wfd kvs = true → ∃ out, dumpsDict kvs = .ok out) := by
  intro fuel
  induction fuel with
  | zero =>
    refine ⟨?_, ?_, ?_⟩ <;> intro x hs
    all_goals omega
  | succ f ih =>
    obtain ⟨ihv, iha, ihd⟩ := ih
    refine ⟨?_, ?_, ?_⟩
    · intro v hs hw
      cases v with
      | vnull => exact ⟨_, rfl⟩
      | vbool b => cases b <;> exact ⟨_, rfl⟩
      | vint n => exact ⟨_, rfl⟩
      | vstr s => exact ⟨_, rfl⟩
      | varr xs =>
        simp only [PyVal.varr.sizeOf_spec] at hs
        obtain ⟨o, ho⟩ := iha xs (by omega) hw
        exact ⟨91 :: (o ++ [93]), by simp [dumps, ho]⟩
      | vdict kvs =>
        simp only [PyVal.vdict.sizeOf_spec] at hs
        obtain ⟨o, ho⟩ := ihd kvs (by omega) hw
        exact ⟨123 :: (o ++ [125]), by simp [dumps, ho]⟩
      | vobj i => simp [wfv] at hw
    · intro xs hs hw
      cases xs with
      | nil => exact ⟨_, rfl⟩
      | cons v tl =>
        simp only [JArr.cons.sizeOf_spec] at hs
        simp only [wfa, Bool.and_eq_true] at hw
        obtain ⟨a, ha⟩ := ihv v (by omega) hw.1
        obtain ⟨b, hb⟩ := iha tl (by omega) hw.2
        cases tl with
        | nil => exact ⟨a, by simpa [dumpsArr] using ha⟩
        | cons w tl2 => exact ⟨a ++ 44 :: 32 :: b, by simp [dumpsArr, ha, hb]⟩
    · intro kvs hs hw
      cases kvs with
      | nil => exact ⟨_, rfl⟩
      | cons k v tl =>
        simp only [JDict.cons.sizeOf_spec] at hs
        simp only [wfd, Bool.and_eq_true] at hw
        obtain ⟨b, hb⟩ := ihv v (by omega) hw.1.1.2
        obtain ⟨r, hr⟩ := ihd tl (by omega) hw.2
        cases tl with
        | nil => exact ⟨34 :: (escape k ++ 34 :: 58 :: 32 :: b), by simp [dumpsDict, hb]⟩
        | cons k2 w tl2 =>
          exact ⟨34 :: (escape k ++ 34 :: 58 :: 32 :: (b ++ 44 :: 32 :: r)),
            by simp [dumpsDict, hb, hr]⟩

theorem dumps_ok_of_wf (v : PyVal) (hw : wfv v = true) : ∃ out, dumps v = .ok out :=
  (dumps_ok_of_wf_all (sizeOf v + 1)).1 v (by omega) hw

theorem dumps_error_of_hasObj_all : ∀ fuel : Nat,
    (∀ v : PyVal, sizeOf v < fuel → hasObj v = true → dumps v = .error ()) ∧
    (∀ xs : JArr, sizeOf xs < fuel → hasObjArr xs = true → dumpsArr xs = .error ()) ∧
    (∀ kvs : JDict, sizeOf kvs < fuel → hasObjDict kvs = true → dumpsDict kvs = .error ()) := by
  intro fuel
  induction fuel with
  | zero =>
    refine ⟨?_, ?_, ?_⟩ <;> intro x hs
    all_goals omega
  | succ f ih =>
    obtain ⟨ihv, iha, ihd⟩ := ih
    refine ⟨?_, ?_, ?_⟩
    · intro v hs hh
      cases v with
      | vnull => simp [hasObj] at hh
      | vbool b => simp [hasObj] at hh
      | vint n => simp [hasObj] at hh
      | vstr s => simp [hasObj] at hh
      | varr xs =>
        simp only [PyVal.varr.sizeOf_spec] at hs
        simp only [hasObj] at hh
        have := iha xs (by omega) hh
        simp [dumps, this]
      | vdict kvs =>
        simp only [PyVal.vdict.sizeOf_spec] at hs
        simp only [hasObj] at hh
        have := ihd kvs (by omega) hh
        simp [dumps, this]
      | vobj i => rfl
    · intro xs hs hh
      cases xs with
      | nil => simp [hasObjArr] at hh
      | cons v tl =>
        simp only [JArr.cons.sizeOf_spec] at hs
        simp only [hasObjArr, Bool.or_eq_true] at hh
        cases tl with
        | nil =>
          rcases hh with hh | hh
          · simpa [dumpsArr] using ihv v (by omega) hh
          · simp [hasObjArr] at hh
        | cons w tl2 =>
          rcases hh with hh | hh
          · have := ihv v (by omega) hh
            simp [dumpsArr, this]
          · have := iha (JArr.cons w tl2) (by omega) hh
            rcases hv : dumps v with e | a <;> simp [dumpsArr, hv, this]
    · intro kvs hs hh
      cases kvs with
      | nil => simp [hasObjDict] at hh
      | cons k v tl =>
        simp only [JDict.cons.sizeOf_spec] at hs
        simp only [hasObjDict, Bool.or_eq_true] at hh
        cases tl with
        | nil =>
          rcases hh with hh | hh
          · have := ihv v (by omega) hh
            simp [dumpsDict, this]
          · simp [hasObjDict] at hh
        | cons k2 w tl2 =>
          rcases hh with hh | hh
          · have := ihv v (by omega) hh
            simp [dumpsDict, this]
          · have := ihd (JDict.cons k2 w tl2) (by omega) hh
            rcases hv : dumps v with e | b <;> simp [dumpsDict, hv, this]

theorem dumps_error_of_hasObj (v : PyVal) (hh : hasObj v = true) : dumps v = .error () :=
  (dumps_error_of_hasObj_all (sizeOf v + 1)).1 v (by omega) hh

/-! ## Merge semantics -/

theorem alookup_aset {β : Type} :
    ∀ (l : List (List Nat × β)) (k k2 : List Nat) (v : β),
      alookup (aset l k v) k2 = if k2 = k then some v else alookup l k2 := by
  intro l
  induction l with
  | nil =>
    intro k k2 v
    by_cases h : k2 = k
    · simp [aset, alookup, h]
    · simp only [aset, alookup, if_neg h]
      rw [if_neg (fun he : k = k2 => h he.symm)]
  | cons p tl ih =>
    intro k k2 v
    obtain ⟨k1, v1⟩ := p
    by_cases h1 : k1 = k
    · simp only [aset, if_pos h1, alookup]
      by_cases h2 : k2 = k
      · rw [if_pos (h1.trans h2.symm), if_pos h2]
      · have hne : ¬ k1 = k2 := fun he => h2 (he.symm.trans h1)
        rw [if_neg hne, if_neg h2, if_neg hne]
    · simp only [aset, if_neg h1, alookup]
      by_cases h2 : k1 = k2
      · have hne2 : ¬ k2 = k := fun he => h1 (h2.trans he)
        rw [if_pos h2, if_neg hne2, if_pos h2]
      · rw [if_neg h2, ih k k2 v, if_neg h2]

theorem alookup_not_mem {β : Type} :
    ∀ (l : List (List Nat × β)) (k : List Nat), k ∉ l.map Prod.fst → alookup l k = none := by
  intro l
  induction l with
  | nil => intro k _; rfl
  | cons p tl ih =>
    intro k h
    obtain ⟨k1, v1⟩ := p
    simp only [List.map_cons, List.mem_cons] at h
    push_neg at h
    simp only [alookup, if_neg (fun he : k1 = k => h.1 he.symm)]
    exact ih k h.2

theorem foldl_aset_lookup {β : Type} :
    ∀ (kvs : List (List Nat × β)) (m0 : List (List Nat × β)) (k : List Nat),
      (kvs.map Prod.fst).Nodup →
      alookup (kvs.foldl (fun m q => aset m q.1 q.2) m0) k =
        match alookup kvs k with
        | some v => some v
        | none => alookup m0 k := by
  intro kvs
  induction kvs with
  | nil =>
    intro m0 k _
    simp [alookup]
  | cons q tl ih =>
    intro m0 k hnd
    obtain ⟨k1, v1⟩ := q
    simp only [List.map_cons, List.nodup_cons] at hnd
    simp only [List.foldl_cons]
    rw [ih (aset m0 k1 v1) k hnd.2]
    by_cases h : k1 = k
    · subst h
      rw [alookup_not_mem tl k1 hnd.1]
      simp [alookup, alookup_aset]
    · cases halk : alookup tl k <;>
        simp only [alookup, if_neg h, halk, alookup_aset]
      rw [if_neg (fun he : k = k1 => h he.symm)]

theorem storeLookup_some (st : Store) (S k : List Nat) (m : List (List Nat × PyVal))
    (h : alookup st S = some m) : storeLookup st S k = alookup m k := by
  unfold storeLookup
  rw [h]

theorem mergeSection_lookup_other (st : Store) (S0 S k : List Nat)
    (kvs0 : List (List Nat × PyVal)) (h : ¬ S0 = S) :
    storeLookup (mergeSection st S0 kvs0) S k = storeLookup st S k := by
  unfold storeLookup mergeSection
  rw [alookup_aset, if_neg (fun he : S = S0 => h he.symm)]

theorem mergeSection_lookup_same (st : Store) (S0 k : List Nat)
    (kvs0 : List (List Nat × PyVal)) (hnd : (kvs0.map Prod.fst).Nodup) :
    storeLookup (mergeSection st S0 kvs0) S0 k =
      match alookup kvs0 k with
      | some v => some v
      | none => storeLookup st S0 k := by
  have hms : alookup (mergeSection st S0 kvs0) S0 =
      some (kvs0.foldl (fun m q => aset m q.1 q.2) ((alookup st S0).getD [])) := by
    unfold mergeSection
    rw [alookup_aset, if_pos rfl]
  rw [storeLookup_some _ _ _ _ hms]
  rw [foldl_aset_lookup kvs0 _ k hnd]
  cases halk : alookup kvs0 k
  · cases hst : alookup st S0 <;> simp [storeLookup, hst, alookup]
  · simp

theorem merge_lookup :
    ∀ (secs : List (List Nat × List (List Nat × PyVal))) (st : Store) (S k : List Nat),
      (secs.map Prod.fst).Nodup → (∀ q ∈ secs, (q.2.map Prod.fst).Nodup) →
      storeLookup (merge st secs) S k =
        match alookup secs S with
        | some kvs =>
          match alookup kvs k with
          | some v => some v
          | none => storeLookup st S k
        | none => storeLookup st S k := by
  intro secs
  induction secs with
  | nil =>
    intro st S k _ _
    simp [merge, alookup]
  | cons q tl ih =>
    intro st S k hnd hknd
    obtain ⟨S0, kvs0⟩ := q
    simp only [List.map_cons, List.nodup_cons] at hnd
    have hstep : merge st ((S0, kvs0) :: tl) = merge (mergeSection st S0 kvs0) tl := rfl
    rw [hstep, ih (mergeSection st S0 kvs0) S k hnd.2 (fun q hq => hknd q (by simp [hq]))]
    by_cases hS : S0 = S
    · subst hS
      rw [alookup_not_mem tl S0 hnd.1]
      have hsame := mergeSection_lookup_same st S0 k kvs0 (hknd (S0, kvs0) (by simp))
      cases halk : alookup kvs0 k <;> simp [alookup, hsame, halk]
    · have hother := mergeSection_lookup_other st S0 S k kvs0 hS
      cases htl : alookup tl S <;> simp [alookup, hS, htl, hother]

/-! ## The claims -/

/-- C1: for every fully JSON-representable data dictionary and any template
argument, `render` returns a string that, parsed as JSON, is deep-equal to
the input dictionary. -/
theorem json_render_roundtrip (bk : Backend) (sys0 : Sys) (kvs : JDict)
    (t : Option (List Nat)) (h : wfv (.vdict kvs) = true) :
    ∃ out, (render bk sys0 (.vdict kvs) t).2 = .ok out ∧
      parse out = some (.vdict kvs) := by
  obtain ⟨out, hout⟩ := dumps_ok_of_wf (.vdict kvs) h
  exact ⟨out, by simp [render, hout], parse_dumps _ out hout h⟩

theorem json_render_roundtrip_witness :
    wfv (.vdict c1_kvs) = true ∧
    ∃ out, (render ⟨1, 2⟩ ⟨3, 4⟩ (.vdict c1_kvs) (some (cps "tmpl"))).2 = .ok out ∧
      parse out = some (.vdict c1_kvs) :=
  ⟨by rfl, json_render_roundtrip ⟨1, 2⟩ ⟨3, 4⟩ c1_kvs (some (cps "tmpl")) (by rfl)⟩

/-- C2: `_parse_file` on a file whose JSON content is an object of
section/key-value objects merges every section, key and value into the
store, overwriting a pre-existing value for the same section and key, and
leaving every unmentioned section and unmentioned key with its prior
value. -/
theorem parse_file_merges (fs : Nat → Option (List Nat)) (path : Nat) (st : Store)
    (content : List Nat) (v : PyVal)
    (secs : List (List Nat × List (List Nat × PyVal)))
    (hfs : fs path = some content) (hp : parse content = some v)
    (hs : toSections v = some secs)
    (h1 : (secs.map Prod.fst).Nodup) (h2 : ∀ q ∈ secs, (q.2.map Prod.fst).Nodup) :
    parse_file fs path st = ⟨.ok true, merge st secs, [.openF path]⟩ ∧
    ∀ S k, storeLookup (merge st secs) S k =
      match alookup secs S with
      | some kvs =>
        match alookup kvs k with
        | some v2 => some v2
        | none => storeLookup st S k
      | none => storeLookup st S k := by
  constructor
  · simp [parse_file, hfs, hp, hs]
  · intro S k
    exact merge_lookup secs st S k h1 h2

theorem parse_file_merges_witness :
    parse_file c2_fs 7 c2_store = ⟨.ok true, merge c2_store c2_secs, [.openF 7]⟩ ∧
    storeLookup (merge c2_store c2_secs) (cps "A") (cps "x") = some (.vstr (cps "9")) ∧
    storeLookup (merge c2_store c2_secs) (cps "A") (cps "y") = some (.vstr (cps "2")) ∧
    storeLookup (merge c2_store c2_secs) (cps "A") (cps "z") = some (.vstr (cps "3")) := by
  have h := parse_file_merges c2_fs 7 c2_store c2_content c2_v c2_secs rfl rfl rfl
    (by decide) (by decide)
  refine ⟨h.1, ?_, ?_, ?_⟩
  · rw [h.2 (cps "A") (cps "x")]
    rfl
  · rw [h.2 (cps "A") (cps "y")]
    rfl
  · rw [h.2 (cps "A") (cps "z")]
    rfl

/-- C3: `_parse_file` on a missing path propagates a file-access error, and
on unparsable content propagates a parse error; in both cases the
Configuration Store is returned unchanged. -/
theorem parse_file_failure_paths (fs : Nat → Option (List Nat)) (path : Nat) (st : Store) :
    (fs path = none → parse_file fs path st = ⟨.error .fileAccess, st, []⟩) ∧
    (∀ content, fs path = some content → parse content = none →
      parse_file fs path st = ⟨.error .parseFailure, st, [.openF path]⟩) := by
  constructor
  · intro h
    simp [parse_file, h]
  · intro content h hp
    simp [parse_file, h, hp]

theorem parse_file_failure_paths_witness :
    (c3_fs1 5 = none ∧
      parse_file c3_fs1 5 c3_store = ⟨.error .fileAccess, c3_store, []⟩) ∧
    (c3_fs2 3 = some ([123] ++ cps "not json") ∧
      parse ([123] ++ cps "not json") = none ∧
      parse_file c3_fs2 3 c3_store = ⟨.error .parseFailure, c3_store, [.openF 3]⟩) :=
  ⟨⟨rfl, (parse_file_failure_paths c3_fs1 5 c3_store).1 rfl⟩,
   ⟨rfl, rfl, (parse_file_failure_paths c3_fs2 3 c3_store).2 _ rfl rfl⟩⟩

/-- C4: a data dictionary holding a value outside the JSON value model makes
`render` propagate the serialization error unmodified, and no output string
is produced. -/
theorem render_serialization_error (bk : Backend) (sys0 : Sys) (d : PyVal)
    (t : Option (List Nat)) (h : hasObj d = true) :
    (render bk sys0 d t).2 = .error () ∧
    ∀ out, (render bk sys0 d t).2 ≠ .ok out := by
  have he : dumps d = .error () := dumps_error_of_hasObj d h
  constructor
  · simp [render, he]
  · intro out
    simp [render, he]

theorem render_serialization_error_witness :
    hasObj c4_bad = true ∧
    ((render ⟨5, 6⟩ ⟨7, 8⟩ c4_bad none).2 = .error () ∧
     ∀ out, (render ⟨5, 6⟩ ⟨7, 8⟩ c4_bad none).2 ≠ .ok out) :=
  ⟨by rfl, render_serialization_error ⟨5, 6⟩ ⟨7, 8⟩ c4_bad none (by rfl)⟩

/-- C5: whenever `_parse_file` returns rather than raising, the returned
boolean is `true`; `false` is never returned on any path. -/
theorem parse_file_returns_true (fs : Nat → Option (List Nat)) (path : Nat) (st : Store)
    (b : Bool) (h : (parse_file fs path st).res = .ok b) : b = true := by
  rcases hfs : fs path with _ | content
  · simp [parse_file, hfs] at h
  · rcases hp : parse content with _ | v
    · simp [parse_file, hfs, hp] at h
    · rcases hs : toSections v with _ | secs
      · simp [parse_file, hfs, hp, hs] at h
      · simp [parse_file, hfs, hp, hs] at h
        exact h

theorem parse_file_returns_true_witness :
    (parse_file c5_fs 0 []).res = .ok true ∧ true = true :=
  ⟨rfl, parse_file_returns_true c5_fs 0 [] true rfl⟩

/-- C6: when `--json` is among the process arguments at pre-run time, the
hook sets the output handler selection to the label `json` and the active
output handler becomes the JSON renderer, regardless of prior
configuration. -/
theorem json_flag_forces_handler (a : App) (h : "--json" ∈ a.app_meta.argv) :
    (set_output_handler a).active_output = "json" ∧
    (set_output_handler a).app_meta.output_handler = "json" := by
  unfold set_output_handler
  rw [if_pos h]
  exact ⟨rfl, rfl⟩

theorem json_flag_forces_handler_witness :
    ("--json" ∈ c6_app.app_meta.argv) ∧
    ((set_output_handler c6_app).active_output = "json" ∧
     (set_output_handler c6_app).app_meta.output_handler = "json") :=
  ⟨by decide, json_flag_forces_handler c6_app (by decide)⟩

/-- C7: every call to `render` leaves the process's standard output and
standard error equal to the saved original streams, regardless of any prior
redirection. -/
theorem render_restores_streams (bk : Backend) (sys0 : Sys) (d : PyVal)
    (t : Option (List Nat)) :
    (render bk sys0 d t).1.stdout = bk.saved_stdout ∧
    (render bk sys0 d t).1.stderr = bk.saved_stderr :=
  ⟨rfl, rfl⟩

/-- C8: the template argument is always ignored: `render` returns the very
same outcome for any two template values. -/
theorem render_ignores_template (bk : Backend) (sys0 : Sys) (d : PyVal)
    (t1 t2 : Option (List Nat)) :
    render bk sys0 d t1 = render bk sys0 d t2 := rfl

/-- C9: the code of `_parse_file` opens the file handle and no path of the
method ever closes it: the operation trace of a run on an existing file is
exactly one open with no close, so the handle's release is left to the
runtime rather than performed deterministically around the parse. -/
theorem parse_file_handle_left_open :
    (parse_file c9_fs 0 []).ops = [FileOp.openF 0] ∧
    FileOp.closeF 0 ∉ (parse_file c9_fs 0 []).ops :=
  ⟨rfl, by decide⟩

/-- C10: stream restoration happens even when serialization fails: when
`render` raises for a non-representable dictionary, the standard streams
have nevertheless been reset to the saved originals. -/
theorem render_restores_streams_on_error (bk : Backend) (sys0 : Sys) (d : PyVal)
    (t : Option (List Nat)) (h : hasObj d = true) :
    (render bk sys0 d t).2 = .error () ∧
    (render bk sys0 d t).1.stdout = bk.saved_stdout ∧
    (render bk sys0 d t).1.stderr = bk.saved_stderr :=
  ⟨by simp [render, dumps_error_of_hasObj d h], rfl, rfl⟩

theorem render_restores_streams_on_error_witness :
    hasObj c10_bad = true ∧
    ((render ⟨11, 12⟩ ⟨13, 14⟩ c10_bad none).2 = .error () ∧
     (render ⟨11, 12⟩ ⟨13, 14⟩ c10_bad none).1.stdout = 11 ∧
     (render ⟨11, 12⟩ ⟨13, 14⟩ c10_bad none).1.stderr = 12) :=
  ⟨by rfl, render_restores_streams_on_error ⟨11, 12⟩ ⟨13, 14⟩ c10_bad none (by rfl)⟩
